import Mathlib

/-!
Verification of the verbaltest playwright-decorators core: a shallow embedding
of the metadata registry (`packages/playwright-core` MetadataStorage), the
decorator registration functions, and the request-execution engine
(`packages/playwright-decorators/src/helpers/api-helper.ts`), together with
theorems checking the natural-language specification against that code.

Modelling conventions:
* JavaScript runtime values are modelled by the inductive `JsVal`
  (numbers as integers; no claim here depends on float behaviour).
* JS objects / `Record<string, T>` are association lists in insertion order,
  matching `Object.entries` iteration order for non-numeric keys.
* JS `Map` is an association list where `set` overwrites in place (keeping the
  original position) and otherwise appends, matching JS `Map` semantics.
* Thrown exceptions are `Except.error` carrying the thrown message.
-/

namespace VerbalTest

/-- Model of a JavaScript value (JSON-compatible fragment plus `undefined`).
Numbers are modelled as integers. -/
inductive JsVal where
  | undefined
  | null
  | bool (b : Bool)
  | num (n : Int)
  | str (s : String)
  | arr (xs : List JsVal)
  | obj (fields : List (String × JsVal))

mutual

/-- Structural equality on `JsVal`, used to model deep-equality checks. -/
def JsVal.beq : JsVal → JsVal → Bool
  | .undefined, .undefined => true
  | .null, .null => true
  | .bool a, .bool b => a == b
  | .num a, .num b => a == b
  | .str a, .str b => a == b
  | .arr xs, .arr ys => JsVal.beqList xs ys
  | .obj fs, .obj gs => JsVal.beqFields fs gs
  | _, _ => false

/-- Elementwise `JsVal.beq` on lists. -/
def JsVal.beqList : List JsVal → List JsVal → Bool
  | [], [] => true
  | x :: xs, y :: ys => JsVal.beq x y && JsVal.beqList xs ys
  | _, _ => false

/-- Elementwise `JsVal.beq` on field lists. -/
def JsVal.beqFields : List (String × JsVal) → List (String × JsVal) → Bool
  | [], [] => true
  | (k, v) :: fs, (l, w) :: gs => k == l && (JsVal.beq v w && JsVal.beqFields fs gs)
  | _, _ => false

end

instance : BEq JsVal := ⟨JsVal.beq⟩

/-- JS `current === null || current === undefined`. -/
def isNullish : JsVal → Bool
  | .null => true
  | .undefined => true
  | _ => false

/-- A numeric string in canonical form (as produced by `String(n)` for a
natural number `n`), the only strings that act as array indices in JS. -/
def canonicalNat (key : String) : Option Nat :=
  match key.toNat? with
  | some n => if toString n = key then some n else none
  | none => none

/-- Model of the JS property access `current[part]` as performed by
`getValueByPath` in api-helper.ts: object field lookup, array/string indexing
(including `length`), and `undefined` everywhere else. Null/undefined
receivers never reach this function (the loop checks them first). -/
def jsIndex : JsVal → String → JsVal
  | .obj fields, key =>
    (fields.find? (fun p => p.1 == key)).elim JsVal.undefined (fun p => p.2)
  | .arr xs, key =>
    if key = "length" then .num xs.length
    else match canonicalNat key with
         | some n => (xs[n]?).getD .undefined
         | none => .undefined
  | .str s, key =>
    if key = "length" then .num s.length
    else match canonicalNat key with
         | some n => match s.data[n]? with
                     | some c => .str (String.mk [c])
                     | none => .undefined
         | none => .undefined
  | _, _ => .undefined

/-- Model of JS `path.split('.')` over the character list, with an
accumulator for the current segment (JS semantics: `"".split('.') = [""]`,
`"a.".split('.') = ["a", ""]`). -/
def splitDotAux : List Char → List Char → List String
  | [], acc => [String.mk acc.reverse]
  | c :: rest, acc =>
    if c = '.' then String.mk acc.reverse :: splitDotAux rest []
    else splitDotAux rest (c :: acc)

/-- `path.split('.')` from api-helper.ts line 31. -/
def splitOnDot (s : String) : List String := splitDotAux s.data []

/-- The loop of `getValueByPath` (api-helper.ts lines 32-39), iterating over
the already-split segments: before each access, a null-or-undefined current
value short-circuits the whole traversal to `undefined`. -/
def walkPath : JsVal → List String → JsVal
  | current, [] => current
  | current, part :: rest =>
    if isNullish current then JsVal.undefined
    else walkPath (jsIndex current part) rest

/-- `getValueByPath(obj, path)` from api-helper.ts lines 30-42. -/
def getValueByPath (obj : JsVal) (path : String) : JsVal :=
  walkPath obj (splitOnDot path)

/-- Traversal is compositional: walking `p1 ++ p2` equals walking `p2` from
the value reached after `p1`. -/
theorem walkPath_append (v : JsVal) (p1 p2 : List String) :
    walkPath v (p1 ++ p2) = walkPath (walkPath v p1) p2 := by
  induction p1 generalizing v with
  | nil => rfl
  | cons a r ih =>
    show walkPath v (a :: (r ++ p2)) = _
    rw [walkPath]
    cases h : isNullish v with
    | true =>
      rw [if_pos rfl]
      have h1 : walkPath v (a :: r) = JsVal.undefined := by rw [walkPath, h, if_pos rfl]
      rw [h1]
      cases p2 with
      | nil => rfl
      | cons b t => rw [walkPath]; rfl
    | false =>
      rw [if_neg (by simp)]
      have h1 : walkPath v (a :: r) = walkPath (jsIndex v a) r := by
        rw [walkPath, h, if_neg (by simp)]
      rw [h1, ih]

/-- Claim C6: for every response body value and every dot-separated extraction
path, dot-path traversal proceeds segment by segment and short-circuits to
`undefined` as soon as any intermediate value (one with segments still left to
consume) is null or absent; extraction is a total Lean function, hence it
never throws, for all bodies and all paths. -/
theorem dot_path_extraction_short_circuits (body : JsVal) (path : String)
    (p1 p2 : List String) (hsplit : splitOnDot path = p1 ++ p2) (hne : p2 ≠ [])
    (hmid : isNullish (walkPath body p1) = true) :
    getValueByPath body path = JsVal.undefined := by
  rw [getValueByPath, hsplit, walkPath_append]
  cases p2 with
  | nil => exact absurd rfl hne
  | cons b t => rw [walkPath, if_pos hmid]

/-- Witness for C6: the body `\x7b a: null \x7d` and the path `"a.b.c"`,
whose traversal meets `null` after the first segment. -/
theorem dot_path_extraction_short_circuits_witness :
    getValueByPath (JsVal.obj [("a", JsVal.null)]) "a.b.c" = JsVal.undefined :=
  dot_path_extraction_short_circuits (JsVal.obj [("a", JsVal.null)]) "a.b.c"
    ["a"] ["b", "c"] rfl (List.cons_ne_nil _ _) rfl

/-! Path-parameter substitution (api-helper.ts lines 57-74). -/

/-- A path-parameter value: `Record<string, string | number>`. -/
inductive Prim where
  | str (s : String)
  | num (n : Int)

/-- JS `String(value)` on a path-parameter value. -/
def jsPrimString : Prim → String
  | .str s => s
  | .num n => toString n

/-- JS `url.includes(placeholder)`: does `pat` occur as a contiguous
substring of `s`? -/
def containsSub (s pat : List Char) : Bool :=
  match s with
  | [] => pat.isEmpty
  | _ :: rest => pat.isPrefixOf s || containsSub rest pat

/-- Literal-text replace-all scan: scan left to right, replacing each
non-overlapping occurrence of the literal text `pat` by the literal text
`rep` and continuing after the replacement. This is the reference semantics
against which the code's regex-based replacement is compared: the two
coincide exactly when the key compiles to regex-literal tokens and the
value contains no `$` (see `jsReplaceAllRegex`). `fuel` only forces
structural termination; it is set to the scanned length, which the scan
never exceeds for nonempty `pat`. -/
def replaceAllFuel (pat rep : List Char) : Nat → List Char → List Char
  | _, [] => []
  | 0, s => s
  | fuel + 1, c :: rest =>
    if pat.isPrefixOf (c :: rest) ∧ pat ≠ []
    then rep ++ replaceAllFuel pat rep fuel (List.drop pat.length (c :: rest))
    else c :: replaceAllFuel pat rep fuel rest

/-- Replace every occurrence of the literal text `pat` in `s` by the
literal text `rep`. -/
def listReplaceAll (pat rep s : List Char) : List Char :=
  replaceAllFuel pat rep s.length s

/-- The placeholder text `\x7bkey\x7d` built at api-helper.ts line 63, used
by the literal `url.includes(placeholder)` guard. -/
def placeholderOf (key : String) : String := "\x7b" ++ key ++ "\x7d"

/-! The replacement itself is NOT literal: line 65 builds
`new RegExp('\\\x7b' + key + '\\\x7d', 'g')`, escaping only the braces, so
the key's characters are interpreted as regex source; and `url.replace`
expands `$`-patterns occurring in the replacement string. The following
models that regex fragment: the dynamically built pattern is a brace
literal, then the key's characters, then a brace literal, so each key
character compiles to a single-character matcher (a plain character, an
identity escape, or `.`); keys using any further regex feature are outside
the model (`compileKeySource` fails and `jsReplaceAllRegex` then leaves the
URL unchanged — no theorem quantifies over such keys). -/

/-- One compiled single-character matcher of the built regex. -/
inductive RegTok where
  | lit (c : Char)
  | any

/-- JS regex syntax characters (special outside a character class). -/
def regexMetaChar (c : Char) : Bool :=
  c = '^' || c = '$' || c = '\\' || c = '.' || c = '*' || c = '+' || c = '?'
  || c = '(' || c = ')' || c = '[' || c = ']' || c = '\x7b' || c = '\x7d' || c = '|'

/-- Compile the raw key text as regex source over the supported fragment:
plain characters, `.` (any character), and identity escapes of
non-alphanumeric characters. Alphanumeric escapes (classes, backreferences)
and the remaining metacharacters fail compilation. -/
def compileKeySource : List Char → Option (List RegTok)
  | [] => some []
  | c :: rest =>
    if c = '\\' then
      match rest with
      | [] => none
      | d :: rest' =>
        if d.isAlphanum then none
        else (compileKeySource rest').map (fun ts => RegTok.lit d :: ts)
    else if c = '.' then (compileKeySource rest).map (fun ts => RegTok.any :: ts)
    else if regexMetaChar c then none
    else (compileKeySource rest).map (fun ts => RegTok.lit c :: ts)

/-- The compiled pattern of `new RegExp('\\\x7b' + key + '\\\x7d', 'g')`:
a literal `\x7b`, the compiled key, a literal `\x7d`. -/
def placeholderTokens (key : String) : Option (List RegTok) :=
  (compileKeySource key.data).map
    (fun ts => RegTok.lit '\x7b' :: ts ++ [RegTok.lit '\x7d'])

/-- Does one matcher accept one character? (`.` excludes line
terminators.) -/
def regTokMatches (t : RegTok) (c : Char) : Bool :=
  match t with
  | .lit l => c == l
  | .any => !(c = '\n' || c = '\r' || c.toNat = 8232 || c.toNat = 8233)

/-- Match the fixed-length pattern against a prefix of `s`, returning the
matched characters and the remainder. -/
def tokensMatchPrefix : List RegTok → List Char → Option (List Char × List Char)
  | [], s => some ([], s)
  | _ :: _, [] => none
  | t :: ts, c :: s =>
    if regTokMatches t c then (tokensMatchPrefix ts s).map (fun r => (c :: r.1, r.2))
    else none

/-- `String.replace` replacement-pattern expansion: `$$` is a dollar sign,
`$&` the matched text, `$` + backquote the portion of the original input
before the match, `$` + quote the portion after it; any other `$` sequence
is kept literally (the built pattern has no capture groups, so `$n` stays
literal). -/
def expandDollarPatterns : List Char → List Char → List Char → List Char → List Char
  | [], _, _, _ => []
  | c :: r, before, matched, after =>
    if c = '$' then
      match r with
      | [] => ['$']
      | d :: r' =>
        if d = '$' then '$' :: expandDollarPatterns r' before matched after
        else if d = '&' then matched ++ expandDollarPatterns r' before matched after
        else if d = Char.ofNat 96 then before ++ expandDollarPatterns r' before matched after
        else if d = Char.ofNat 39 then after ++ expandDollarPatterns r' before matched after
        else '$' :: expandDollarPatterns (d :: r') before matched after
    else c :: expandDollarPatterns r before matched after

/-- `url.replace(regex, rep)` with the `g` flag for the fixed-length
compiled pattern `ts`: scan left to right; where the pattern matches, emit
the `$`-expanded replacement and continue after the match; elsewhere emit
the character. `before` accumulates the original characters already passed
(for the backquote pattern); `fuel` forces structural termination (the
built pattern always has at least its two brace tokens, so each match
consumes at least one character). -/
def regexReplaceFuel (ts : List RegTok) (rep : List Char) :
    Nat → List Char → List Char → List Char
  | _, _, [] => []
  | 0, _, s => s
  | fuel + 1, before, c :: rest =>
    match tokensMatchPrefix ts (c :: rest) with
    | some r =>
      if ts.isEmpty then c :: regexReplaceFuel ts rep fuel (before ++ [c]) rest
      else
        expandDollarPatterns rep before r.1 r.2
          ++ regexReplaceFuel ts rep fuel (before ++ r.1) r.2
    | none => c :: regexReplaceFuel ts rep fuel (before ++ [c]) rest

/-- Line 67: `url.replace(regex, String(value))` for the dynamically built
global regex of `key`. Keys outside the supported regex fragment leave the
URL unchanged in the model. -/
def jsReplaceAllRegex (url : String) (key : String) (rep : String) : String :=
  match placeholderTokens key with
  | some ts => String.mk (regexReplaceFuel ts rep.data url.data.length [] url.data)
  | none => url

/-- The path-parameter loop of `processApiRequest` (api-helper.ts lines
59-73): for each entry in insertion order, if the literal placeholder text
occurs in the current URL, run the global regex replacement with the
stringified value; otherwise leave the URL unchanged (only a console
warning is emitted). -/
def substPathParams (path : String) (pathParams : List (String × Prim)) : String :=
  pathParams.foldl
    (fun url kv =>
      let ph := placeholderOf kv.1
      if containsSub url.data ph.data
      then jsReplaceAllRegex url kv.1 (jsPrimString kv.2)
      else url)
    path

/-- The scan result does not depend on the fuel once the fuel covers the
scanned length, provided the pattern is nonempty. -/
theorem replaceAllFuel_congr (pat rep : List Char) (hpat : pat ≠ []) :
    ∀ (f₁ f₂ : Nat) (s : List Char), s.length ≤ f₁ → s.length ≤ f₂ →
      replaceAllFuel pat rep f₁ s = replaceAllFuel pat rep f₂ s := by
  intro f₁
  induction f₁ with
  | zero =>
    intro f₂ s h1 _
    have : s = [] := List.eq_nil_of_length_eq_zero (Nat.le_zero.mp h1)
    subst this
    cases f₂ <;> rfl
  | succ k ih =>
    intro f₂ s h1 h2
    cases s with
    | nil => cases f₂ <;> rfl
    | cons c rest =>
      have hf₂ : ∃ m, f₂ = m + 1 := by
        cases f₂ with
        | zero => exact absurd h2 (by simp)
        | succ m => exact ⟨m, rfl⟩
      obtain ⟨m, rfl⟩ := hf₂
      rw [replaceAllFuel, replaceAllFuel]
      by_cases hc : pat.isPrefixOf (c :: rest) ∧ pat ≠ []
      · rw [if_pos hc, if_pos hc]
        have hlen : (List.drop pat.length (c :: rest)).length ≤ rest.length := by
          rw [List.length_drop]
          have : 1 ≤ pat.length := by
            cases pat with
            | nil => exact absurd rfl hpat
            | cons _ _ => simp
          simp only [List.length_cons]
          omega
        have hk : (List.drop pat.length (c :: rest)).length ≤ k :=
          le_trans hlen (by simpa using Nat.le_of_succ_le_succ h1)
        have hm : (List.drop pat.length (c :: rest)).length ≤ m :=
          le_trans hlen (by simpa using Nat.le_of_succ_le_succ h2)
        rw [ih _ _ hk hm]
      · rw [if_neg hc, if_neg hc]
        have hk : rest.length ≤ k := by simpa using Nat.le_of_succ_le_succ h1
        have hm : rest.length ≤ m := by simpa using Nat.le_of_succ_le_succ h2
        rw [ih _ _ hk hm]

/-- If the pattern never occurs in the scanned text, the scan is the
identity. -/
theorem listReplaceAll_of_not_contains (pat rep s : List Char)
    (h : containsSub s pat = false) : listReplaceAll pat rep s = s := by
  induction s with
  | nil => rfl
  | cons c rest ih =>
    rw [containsSub, Bool.or_eq_false_iff] at h
    rw [listReplaceAll, List.length_cons, replaceAllFuel,
      if_neg (fun hc => by
        have h1 := hc.1
        rw [h.1] at h1
        exact Bool.false_ne_true h1)]
    exact congrArg (c :: ·) (ih h.2)

/-- Every occurrence is replaced, not only the first: if no occurrence of
`pat` starts strictly before position `x.length`, the scan emits `x`,
replaces the occurrence at `x.length`, and continues scanning the rest. -/
theorem listReplaceAll_splits (pat rep x y : List Char) (hpat : pat ≠ [])
    (hx : ∀ i, i < x.length → ¬ (pat <+: List.drop i (x ++ (pat ++ y)))) :
    listReplaceAll pat rep (x ++ (pat ++ y)) = x ++ (rep ++ listReplaceAll pat rep y) := by
  induction x with
  | nil =>
    simp only [List.nil_append]
    obtain ⟨p₀, pt, rfl⟩ : ∃ p₀ pt, pat = p₀ :: pt := by
      cases pat with
      | nil => exact absurd rfl hpat
      | cons p₀ pt => exact ⟨p₀, pt, rfl⟩
    rw [listReplaceAll, List.cons_append, List.length_cons, replaceAllFuel,
      if_pos ⟨List.isPrefixOf_iff_prefix.mpr
        (by rw [← List.cons_append]; exact List.prefix_append _ _), hpat⟩,
      ← List.cons_append, List.drop_left]
    congr 1
    apply replaceAllFuel_congr _ rep hpat
    · simp only [List.length_append, List.length_cons]
      omega
    · exact le_refl _
  | cons c x' ih =>
    have h0 : ¬ (pat <+: (c :: (x' ++ (pat ++ y)))) := by
      have := hx 0 (by simp)
      simpa using this
    have hx' : ∀ i, i < x'.length → ¬ (pat <+: List.drop i (x' ++ (pat ++ y))) := by
      intro i hi
      have := hx (i + 1) (by simpa using Nat.succ_lt_succ hi)
      simpa using this
    rw [List.cons_append, listReplaceAll, List.length_cons, replaceAllFuel,
      if_neg (fun hc => h0 (List.isPrefixOf_iff_prefix.mp hc.1))]
    rw [List.cons_append]
    exact congrArg (c :: ·) (ih hx')

/-- A key made only of non-syntax characters compiles to literal matchers,
one per character. -/
theorem compileKeySource_literal (key : List Char)
    (h : key.all (fun c => !regexMetaChar c) = true) :
    compileKeySource key = some (key.map RegTok.lit) := by
  induction key with
  | nil => rfl
  | cons c rest ih =>
    rw [List.all_cons, Bool.and_eq_true] at h
    have hm : regexMetaChar c = false := by
      cases hmc : regexMetaChar c
      · rfl
      · rw [hmc] at h; cases h.1
    have hb : ¬ (c = '\\') := by
      intro hc; subst hc; exact absurd hm (by decide)
    have hd : ¬ (c = '.') := by
      intro hc; subst hc; exact absurd hm (by decide)
    rw [compileKeySource.eq_def]
    simp [hb, hd, hm, ih h.2]

/-- An all-literal pattern matches a prefix exactly when its character list
is a prefix, and then matches those characters. -/
theorem tokensMatchPrefix_lits (pat : List Char) :
    ∀ s : List Char, tokensMatchPrefix (pat.map RegTok.lit) s
      = if pat.isPrefixOf s then some (pat, List.drop pat.length s) else none := by
  induction pat with
  | nil =>
    intro s
    simp [tokensMatchPrefix, List.isPrefixOf]
  | cons p pt ih =>
    intro s
    cases s with
    | nil => simp [tokensMatchPrefix, List.isPrefixOf]
    | cons c s' =>
      rw [List.map_cons, tokensMatchPrefix]
      by_cases hpc : c = p
      · subst hpc
        rw [if_pos (by simp [regTokMatches]), ih s']
        by_cases hpp : pt.isPrefixOf s' = true
        · rw [if_pos hpp, if_pos (by simp [List.isPrefixOf, hpp])]
          rfl
        · rw [if_neg hpp, if_neg (by
            simp only [List.isPrefixOf, Bool.and_eq_true]
            exact fun hh => hpp hh.2)]
          rfl
      · rw [if_neg (by simp [regTokMatches]; exact hpc),
          if_neg (by
            simp only [List.isPrefixOf, Bool.and_eq_true, beq_iff_eq]
            exact fun hh => hpc hh.1.symm)]

/-- A replacement string without `$` is inserted verbatim. -/
theorem expandDollarPatterns_no_dollar (rep before matched after : List Char)
    (h : rep.all (fun c => !(c == '$')) = true) :
    expandDollarPatterns rep before matched after = rep := by
  induction rep with
  | nil => rfl
  | cons c r ih =>
    rw [List.all_cons, Bool.and_eq_true] at h
    have hc : ¬ (c = '$') := by
      intro hcc
      subst hcc
      simp at h
    rw [expandDollarPatterns.eq_def]
    simp [hc, ih h.2]

/-- For an all-literal pattern and a `$`-free replacement, the regex scan is
exactly the literal-text replace-all scan. -/
theorem regexReplaceFuel_lits (pat rep : List Char)
    (hrep : rep.all (fun c => !(c == '$')) = true) :
    ∀ (fuel : Nat) (before s : List Char),
      regexReplaceFuel (pat.map RegTok.lit) rep fuel before s
        = replaceAllFuel pat rep fuel s := by
  intro fuel
  induction fuel with
  | zero =>
    intro before s
    cases s <;> rfl
  | succ f ih =>
    intro before s
    cases s with
    | nil => rfl
    | cons c rest =>
      rw [regexReplaceFuel, replaceAllFuel, tokensMatchPrefix_lits]
      cases hpre : pat.isPrefixOf (c :: rest) with
      | false =>
        rw [if_neg Bool.false_ne_true, if_neg (fun hc => Bool.false_ne_true hc.1)]
        exact congrArg (c :: ·) (ih _ _)
      | true =>
        rw [if_pos rfl]
        cases pat with
        | nil =>
          rw [if_neg (fun hc => hc.2 rfl)]
          exact congrArg (c :: ·) (ih _ _)
        | cons p pt =>
          rw [if_pos ⟨rfl, List.cons_ne_nil p pt⟩]
          show expandDollarPatterns rep before (p :: pt)
              (List.drop (p :: pt).length (c :: rest))
            ++ regexReplaceFuel ((p :: pt).map RegTok.lit) rep f (before ++ (p :: pt))
                (List.drop (p :: pt).length (c :: rest))
            = rep ++ replaceAllFuel (p :: pt) rep f (List.drop (p :: pt).length (c :: rest))
          rw [expandDollarPatterns_no_dollar _ _ _ _ hrep]
          exact congrArg (rep ++ ·) (ih _ _)

/-- For keys within the regex-literal fragment and `$`-free values, the
code's regex replacement coincides with literal replace-all of the
placeholder text. -/
theorem jsReplaceAllRegex_literal (url key rep : String)
    (hkey : key.data.all (fun c => !regexMetaChar c) = true)
    (hrep : rep.data.all (fun c => !(c == '$')) = true) :
    jsReplaceAllRegex url key rep
      = String.mk (listReplaceAll (placeholderOf key).data rep.data url.data) := by
  rw [jsReplaceAllRegex, placeholderTokens, compileKeySource_literal key.data hkey]
  have hmap : RegTok.lit '\x7b' :: key.data.map RegTok.lit ++ [RegTok.lit '\x7d']
      = (placeholderOf key).data.map RegTok.lit := by
    simp [placeholderOf]
  show String.mk (regexReplaceFuel
      (RegTok.lit '\x7b' :: key.data.map RegTok.lit ++ [RegTok.lit '\x7d'])
      rep.data url.data.length [] url.data) = _
  rw [hmap, regexReplaceFuel_lits _ _ hrep]
  rfl

/-- Counterexample to C2 as stated: the replacement is regex-based
(api-helper.ts line 65 escapes only the braces), so it is not true for
every key and map that unmatched placeholders stay intact and that the
stringified value is inserted. With key `a.b` the unescaped `.` matches any
character and the unmatched placeholder `\x7baXb\x7d` is rewritten to `7`;
and with value `$&` the replacement pattern re-inserts the matched
placeholder instead of the value. -/
theorem path_substitution_regex_injection_counterexample :
    substPathParams "/x/\x7ba.b\x7d/y/\x7baXb\x7d" [("a.b", Prim.num 7)] = "/x/7/y/7"
    ∧ ("/x/7/y/7" : String) ≠ "/x/7/y/\x7baXb\x7d"
    ∧ substPathParams "/a/\x7bid\x7d" [("id", Prim.str "$&")] = "/a/\x7bid\x7d"
    ∧ ("/a/\x7bid\x7d" : String) ≠ "/a/$&" :=
  ⟨by decide, by decide, by decide, by decide⟩

/-- Claim C2, amended: for every path template, and every path-parameter map
whose keys contain no regex syntax characters and whose stringified values
contain no `$`, substitution replaces every occurrence of each placeholder
`\x7bkey\x7d` (not only the first) with the stringified value, and any
placeholder with no matching key is left intact; substitution is a total
function, so it never aborts the request. (Outside that fragment the code
inherits JS regex/replacement-pattern semantics — see the counterexample.)
Stated as: (1) on the fragment, the regex replacement is literal
replace-all of the placeholder text, (2) the literal scan replaces the
occurrence at any position preceded by occurrence-free text and keeps
scanning the remainder, (3) occurrence-free text is returned unchanged, and
(4)-(5) the spec's concrete examples on `substPathParams` itself. -/
theorem path_substitution_replaces_every_occurrence_for_literal_keys :
    (∀ url key rep : String, key.data.all (fun c => !regexMetaChar c) = true →
        rep.data.all (fun c => !(c == '$')) = true →
        jsReplaceAllRegex url key rep
          = String.mk (listReplaceAll (placeholderOf key).data rep.data url.data))
    ∧ (∀ pat rep x y : List Char, pat ≠ [] →
        (∀ i, i < x.length → ¬ (pat <+: List.drop i (x ++ (pat ++ y)))) →
        listReplaceAll pat rep (x ++ (pat ++ y)) = x ++ (rep ++ listReplaceAll pat rep y))
    ∧ (∀ pat rep s : List Char, containsSub s pat = false →
        listReplaceAll pat rep s = s)
    ∧ substPathParams "/a/\x7bid\x7d/b/\x7bid\x7d" [("id", Prim.num 7)] = "/a/7/b/7"
    ∧ substPathParams "/a/\x7bid\x7d/b/\x7bmissing\x7d" [("id", Prim.num 7)]
        = "/a/7/b/\x7bmissing\x7d" :=
  ⟨jsReplaceAllRegex_literal, listReplaceAll_splits, listReplaceAll_of_not_contains,
   by decide, by decide⟩

/-- Witness for the amended C2: the universally quantified parts applied at
concrete inputs, with the hypotheses discharged by computation. -/
theorem path_substitution_replaces_every_occurrence_for_literal_keys_witness :
    jsReplaceAllRegex "/a/\x7bid\x7d" "id" "7"
      = String.mk (listReplaceAll (placeholderOf "id").data "7".data "/a/\x7bid\x7d".data)
    ∧ listReplaceAll "ab".data "z".data ("xx".data ++ ("ab".data ++ "ab".data))
      = "xx".data ++ ("z".data ++ listReplaceAll "ab".data "z".data "ab".data)
    ∧ listReplaceAll "ab".data "z".data "xyx".data = "xyx".data :=
  ⟨path_substitution_replaces_every_occurrence_for_literal_keys.1 "/a/\x7bid\x7d" "id" "7"
      (by decide) (by decide),
   path_substitution_replaces_every_occurrence_for_literal_keys.2.1 "ab".data "z".data
      "xx".data "ab".data (by decide) (by decide),
   path_substitution_replaces_every_occurrence_for_literal_keys.2.2.1 "ab".data "z".data
      "xyx".data (by decide)⟩

/-! Query-string construction (api-helper.ts lines 81-98). -/

/-- A query-parameter value: `Record<string, string | number | boolean | string[]>`. -/
inductive QVal where
  | str (s : String)
  | num (n : Int)
  | bool (b : Bool)
  | arr (xs : List String)

/-- JS `String(value)` on a query-parameter value (the array case uses the
JS `Array.prototype.toString` join; it is unreachable from `pairsOfEntry`,
which handles arrays separately, but kept for totality). -/
def qvalString : QVal → String
  | .str s => s
  | .num n => toString n
  | .bool b => if b then "true" else "false"
  | .arr xs => String.intercalate "," xs

/-- One `Object.entries(queryParams)` iteration of the forEach at lines
84-90: an array value appends one `key=value` pair per element, in array
order; any other value appends a single pair with the value stringified. -/
def pairsOfEntry : String × QVal → List (String × String)
  | (key, QVal.arr xs) => xs.map (fun v => (key, v))
  | (key, value) => [(key, qvalString value)]

/-- The ordered pair list accumulated in the `URLSearchParams` by the
forEach loop at lines 84-90. -/
def buildQueryPairs (qs : List (String × QVal)) : List (String × String) :=
  qs.foldl (fun acc kv => acc ++ pairsOfEntry kv) []

/-- Uppercase hex digit, as used by percent-encoding. -/
def hexDigitUpper (n : Nat) : Char :=
  if n < 10 then Char.ofNat (48 + n) else Char.ofNat (55 + n)

/-- UTF-8 bytes of a character (as plain naturals). -/
def utf8Bytes (c : Char) : List Nat :=
  let n := c.toNat
  if n < 128 then [n]
  else if n < 2048 then [192 + n / 64, 128 + n % 64]
  else if n < 65536 then [224 + n / 4096, 128 + n / 64 % 64, 128 + n % 64]
  else [240 + n / 262144, 128 + n / 4096 % 64, 128 + n / 64 % 64, 128 + n % 64]

/-- `application/x-www-form-urlencoded` serialization of one character, as
performed by `URLSearchParams.toString()`: ASCII alphanumerics and `*-._`
kept, space becomes `+`, anything else percent-encoded bytewise. -/
def formEncodeChar (c : Char) : List Char :=
  if c = ' ' then ['+']
  else if c.isAlphanum || c == '*' || c == '-' || c == '.' || c == '_' then [c]
  else (utf8Bytes c).flatMap (fun b => ['%', hexDigitUpper (b / 16), hexDigitUpper (b % 16)])

/-- `URLSearchParams` serialization of a name or value. -/
def formEncode (s : String) : String := String.mk (s.data.flatMap formEncodeChar)

/-- `searchParams.toString()` at line 93: the accumulated pairs rendered as
`k=v` joined by `&`, with form-urlencoding. -/
def queryStringOf (qs : List (String × QVal)) : String :=
  String.intercalate "&"
    ((buildQueryPairs qs).map (fun p => formEncode p.1 ++ "=" ++ formEncode p.2))

/-- Lines 82-97: if `queryParams` is present and the rendered query string is
nonempty, append it to the URL after `?` (or `&` when the URL already
contains `?`); otherwise leave the URL unchanged. -/
def appendQuery (url : String) (queryParams : Option (List (String × QVal))) : String :=
  match queryParams with
  | none => url
  | some qs =>
    let queryString := queryStringOf qs
    if queryString.isEmpty then url
    else url ++ (if url.data.contains '?' then "&" else "?") ++ queryString

/-- Folding the append-only accumulation is concatenation of the per-entry
pair lists. -/
theorem buildQueryPairs_eq_bind (qs : List (String × QVal)) :
    buildQueryPairs qs = qs.flatMap pairsOfEntry := by
  have aux : ∀ (l : List (String × QVal)) (acc : List (String × String)),
      l.foldl (fun acc kv => acc ++ pairsOfEntry kv) acc = acc ++ l.flatMap pairsOfEntry := by
    intro l
    induction l with
    | nil => intro acc; simp
    | cons e t ih => intro acc; simp [List.foldl_cons, ih, List.append_assoc]
  simpa using aux qs []

/-- Every pair produced by one entry carries that entry's key. -/
theorem pairsOfEntry_fst (e : String × QVal) (p : String × String)
    (hp : p ∈ pairsOfEntry e) : p.1 = e.1 := by
  obtain ⟨k, v⟩ := e
  cases v with
  | arr xs =>
    simp only [pairsOfEntry, List.mem_map] at hp
    obtain ⟨x, _, rfl⟩ := hp
    rfl
  | str s => simp only [pairsOfEntry, List.mem_singleton] at hp; rw [hp]
  | num n => simp only [pairsOfEntry, List.mem_singleton] at hp; rw [hp]
  | bool b => simp only [pairsOfEntry, List.mem_singleton] at hp; rw [hp]

/-- Entries with keys other than `k` contribute nothing to the `k`-filtered
pair list. -/
theorem filter_bind_pairs_eq_nil (qs : List (String × QVal)) (k : String)
    (hk : k ∉ qs.map Prod.fst) :
    (qs.flatMap pairsOfEntry).filter (fun p => p.1 == k) = [] := by
  induction qs with
  | nil => rfl
  | cons e t ih =>
    rw [List.flatMap_cons, List.filter_append]
    have h1 : (pairsOfEntry e).filter (fun p => p.1 == k) = [] := by
      rw [List.filter_eq_nil_iff]
      intro p hp
      have hfst := pairsOfEntry_fst e p hp
      intro hbeq
      have hek : e.1 = k := by rw [← hfst]; simpa using hbeq
      exact hk (by rw [List.map_cons]; exact List.mem_cons.mpr (Or.inl hek.symm))
    rw [h1, List.nil_append]
    exact ih (fun hm => hk (List.mem_cons_of_mem _ hm))

/-- With unique keys, filtering the accumulated pairs by a present key
recovers exactly that entry's contribution. -/
theorem filter_flatMap_pairs (qs : List (String × QVal)) (k : String) (v : QVal) :
    (qs.map Prod.fst).Nodup → (k, v) ∈ qs →
    (qs.flatMap pairsOfEntry).filter (fun p => p.1 == k) = pairsOfEntry (k, v) := by
  induction qs with
  | nil => intro _ hmem; cases hmem
  | cons e t ih =>
    intro hnodup hmem
    rw [List.map_cons, List.nodup_cons] at hnodup
    rw [List.flatMap_cons, List.filter_append]
    rcases List.mem_cons.mp hmem with heq | hmem'
    · have hfil : (pairsOfEntry e).filter (fun p => p.1 == k) = pairsOfEntry e :=
        List.filter_eq_self.mpr (fun p hp => by
          have := pairsOfEntry_fst e p hp
          simp [this, ← heq])
      have hnil : (t.flatMap pairsOfEntry).filter (fun p => p.1 == k) = [] :=
        filter_bind_pairs_eq_nil t k (by rw [← heq] at hnodup; exact hnodup.1)
      rw [hfil, hnil, List.append_nil, ← heq]
    · have hek : e.1 ≠ k := fun h => hnodup.1 (h ▸ List.mem_map.mpr ⟨(k, v), hmem', rfl⟩)
      have hnil : (pairsOfEntry e).filter (fun p => p.1 == k) = [] := by
        rw [List.filter_eq_nil_iff]
        intro p hp hbeq
        exact hek (by rw [← pairsOfEntry_fst e p hp]; simpa using hbeq)
      rw [hnil, List.nil_append]
      exact ih hnodup.2 hmem'

/-- Claim C7: query construction appends, for each key with an array value,
one `key=value` pair per element in array order (repeated-key encoding), and
for each key with a scalar value a single `key=value` pair with the value
stringified; an empty query map yields a URL with no `?` suffix added
(as does an absent one). -/
theorem query_construction_repeated_keys :
    (∀ (qs : List (String × QVal)) (k : String) (xs : List String),
        (qs.map Prod.fst).Nodup → (k, QVal.arr xs) ∈ qs →
        (buildQueryPairs qs).filter (fun p => p.1 == k) = xs.map (fun v => (k, v)))
    ∧ (∀ (qs : List (String × QVal)) (k : String) (v : QVal),
        (qs.map Prod.fst).Nodup → (k, v) ∈ qs → (∀ xs, v ≠ QVal.arr xs) →
        (buildQueryPairs qs).filter (fun p => p.1 == k) = [(k, qvalString v)])
    ∧ (∀ url, appendQuery url (some []) = url)
    ∧ (∀ url, appendQuery url none = url)
    ∧ queryStringOf [("tag", QVal.arr ["x", "y"])] = "tag=x&tag=y" := by
  refine ⟨?_, ?_, ?_, fun url => rfl, by decide⟩
  · intro qs k xs hnodup hmem
    rw [buildQueryPairs_eq_bind]
    exact filter_flatMap_pairs qs k (QVal.arr xs) hnodup hmem
  · intro qs k v hnodup hmem hv
    rw [buildQueryPairs_eq_bind, filter_flatMap_pairs qs k v hnodup hmem]
    cases v with
    | arr xs => exact absurd rfl (hv xs)
    | str s => rfl
    | num n => rfl
    | bool b => rfl
  · intro url
    rfl

/-- Witness for C7: the repeated-key and scalar parts applied to the concrete
query map `\x7b tag: ["x","y"], page: 3 \x7d`. -/
theorem query_construction_repeated_keys_witness :
    (buildQueryPairs [("tag", QVal.arr ["x", "y"]), ("page", QVal.num 3)]).filter
        (fun p => p.1 == "tag") = ["x", "y"].map (fun v => ("tag", v))
    ∧ (buildQueryPairs [("tag", QVal.arr ["x", "y"]), ("page", QVal.num 3)]).filter
        (fun p => p.1 == "page") = [("page", qvalString (QVal.num 3))] :=
  ⟨query_construction_repeated_keys.1 [("tag", QVal.arr ["x", "y"]), ("page", QVal.num 3)]
      "tag" ["x", "y"] (by decide) (by simp),
   query_construction_repeated_keys.2.1 [("tag", QVal.arr ["x", "y"]), ("page", QVal.num 3)]
      "page" (QVal.num 3) (by decide) (by simp) (fun xs h => by cases h)⟩

/-! JSON serialization (`JSON.stringify(options.body)` at api-helper.ts line
106) and parsing (`JSON.parse(requestOptions.data)` at line 135). -/

/-- Lowercase hex digit, as used by `JSON.stringify` control escapes. -/
def hexDigitLowerJson (n : Nat) : Char :=
  if n < 10 then Char.ofNat (48 + n) else Char.ofNat (87 + n)

/-- `JSON.stringify` escaping of one string character. -/
def jsonEscapeChar (c : Char) : List Char :=
  if c = '"' then ['\\', '"']
  else if c = '\\' then ['\\', '\\']
  else if c = '\x08' then ['\\', 'b']
  else if c = '\x0c' then ['\\', 'f']
  else if c = '\n' then ['\\', 'n']
  else if c = '\r' then ['\\', 'r']
  else if c = '\t' then ['\\', 't']
  else if c.toNat < 32 then
    ['\\', 'u', '0', '0', hexDigitLowerJson (c.toNat / 16), hexDigitLowerJson (c.toNat % 16)]
  else [c]

/-- A JSON string literal with quotes and escapes. -/
def jsonQuote (s : String) : String :=
  "\"" ++ String.mk (s.data.flatMap jsonEscapeChar) ++ "\""

mutual

/-- Model of `JSON.stringify`. Inside arrays `undefined` serializes as
`null`; `undefined`-valued object fields are omitted (a truthy `options.body`
is never a top-level `undefined`). -/
def jsonStringify : JsVal → String
  | .undefined => "null"
  | .null => "null"
  | .bool b => if b then "true" else "false"
  | .num n => toString n
  | .str s => jsonQuote s
  | .arr xs => "[" ++ jsonStringifyElems xs ++ "]"
  | .obj fs => "\x7b" ++ jsonStringifyFields fs ++ "\x7d"

/-- Comma-joined serialization of array elements. -/
def jsonStringifyElems : List JsVal → String
  | [] => ""
  | [x] => jsonStringify x
  | x :: rest => jsonStringify x ++ "," ++ jsonStringifyElems rest

/-- Comma-joined serialization of object fields, skipping `undefined`. -/
def jsonStringifyFields : List (String × JsVal) → String
  | [] => ""
  | (k, v) :: rest =>
    match v with
    | .undefined => jsonStringifyFields rest
    | _ =>
      let piece := jsonQuote k ++ ":" ++ jsonStringify v
      let restS := jsonStringifyFields rest
      if restS.isEmpty then piece else piece ++ "," ++ restS

end

/-- JSON whitespace. -/
def isJsonWs (c : Char) : Bool := c = ' ' || c = '\n' || c = '\t' || c = '\r'

/-- Drop leading JSON whitespace. -/
def skipWs : List Char → List Char
  | [] => []
  | c :: rest => if isJsonWs c then skipWs rest else c :: rest

/-- Value of one hex digit. -/
def hexVal (c : Char) : Option Nat :=
  if '0' ≤ c ∧ c ≤ '9' then some (c.toNat - 48)
  else if 'a' ≤ c ∧ c ≤ 'f' then some (c.toNat - 87)
  else if 'A' ≤ c ∧ c ≤ 'F' then some (c.toNat - 55)
  else none

/-- Parse the remainder of a JSON string literal (the opening quote already
consumed), returning the decoded characters and the input after the closing
quote. Lone surrogate escapes decode through `Char.ofNat`'s default. -/
def parseJsonStringAux : List Char → Option (List Char × List Char)
  | [] => none
  | '"' :: rest => some ([], rest)
  | '\\' :: 'u' :: h1 :: h2 :: h3 :: h4 :: rest =>
    match hexVal h1, hexVal h2, hexVal h3, hexVal h4 with
    | some a, some b, some c, some d =>
      (parseJsonStringAux rest).map
        (fun r => (Char.ofNat (((a * 16 + b) * 16 + c) * 16 + d) :: r.1, r.2))
    | _, _, _, _ => none
  | '\\' :: e :: rest =>
    match (match e with
           | '"' => some '"'
           | '\\' => some '\\'
           | '/' => some '/'
           | 'b' => some '\x08'
           | 'f' => some '\x0c'
           | 'n' => some '\n'
           | 'r' => some '\r'
           | 't' => some '\t'
           | _ => none) with
    | some c => (parseJsonStringAux rest).map (fun r => (c :: r.1, r.2))
    | none => none
  | c :: rest =>
    if c.toNat < 32 then none
    else (parseJsonStringAux rest).map (fun r => (c :: r.1, r.2))

/-- Split leading decimal digits. -/
def takeDigits : List Char → List Char × List Char
  | [] => ([], [])
  | c :: rest =>
    if c.isDigit then
      let r := takeDigits rest
      (c :: r.1, r.2)
    else ([], c :: rest)

/-- Decimal value of a digit run. -/
def digitsToNat (ds : List Char) : Nat :=
  ds.foldl (fun a c => a * 10 + (c.toNat - 48)) 0

/-- Parse a JSON number. The model is integer-only: fractional or exponent
parts make the parse fail (no claim depends on float values). -/
def parseJsonNumber (cs : List Char) : Option (JsVal × List Char) :=
  let p := match cs with
    | '-' :: rest => (true, rest)
    | _ => (false, cs)
  match takeDigits p.2 with
  | ([], _) => none
  | (ds, rest) =>
    match rest with
    | '.' :: _ => none
    | 'e' :: _ => none
    | 'E' :: _ => none
    | _ =>
      some (.num (if p.1 then -(digitsToNat ds : Int) else (digitsToNat ds : Int)), rest)

/-- Parsing mode: a single value, the element list of an array (after `[` or
`,`), or the field list of an object (after `\x7b` or `,`). -/
inductive PMode where
  | value
  | elems
  | fields

/-- Recursive-descent JSON parser. `fuel` forces structural termination; it
is bounded below by the recursion depth, and `jsonParse` passes more than
any input can consume (running out of fuel models the engine's behaviour on
a `JSON.parse` failure). -/
def parseJsonCore : Nat → PMode → List Char → Option (JsVal × List Char)
  | 0, _, _ => none
  | fuel + 1, PMode.value, cs =>
    match skipWs cs with
    | [] => none
    | c :: rest =>
      if c = '"' then
        (parseJsonStringAux rest).map (fun r => (JsVal.str (String.mk r.1), r.2))
      else if c = '[' then
        match skipWs rest with
        | ']' :: rem => some (JsVal.arr [], rem)
        | cs' => parseJsonCore fuel PMode.elems cs'
      else if c = '\x7b' then
        match skipWs rest with
        | '\x7d' :: rem => some (JsVal.obj [], rem)
        | cs' => parseJsonCore fuel PMode.fields cs'
      else if c = 't' then
        match rest with
        | 'r' :: 'u' :: 'e' :: rem => some (JsVal.bool true, rem)
        | _ => none
      else if c = 'f' then
        match rest with
        | 'a' :: 'l' :: 's' :: 'e' :: rem => some (JsVal.bool false, rem)
        | _ => none
      else if c = 'n' then
        match rest with
        | 'u' :: 'l' :: 'l' :: rem => some (JsVal.null, rem)
        | _ => none
      else parseJsonNumber (c :: rest)
  | fuel + 1, PMode.elems, cs =>
    match parseJsonCore fuel PMode.value cs with
    | none => none
    | some (v, rem) =>
      match skipWs rem with
      | ',' :: rem' =>
        match parseJsonCore fuel PMode.elems rem' with
        | some (JsVal.arr xs, rem'') => some (JsVal.arr (v :: xs), rem'')
        | _ => none
      | ']' :: rem' => some (JsVal.arr [v], rem')
      | _ => none
  | fuel + 1, PMode.fields, cs =>
    match skipWs cs with
    | '"' :: rest =>
      match parseJsonStringAux rest with
      | none => none
      | some (kcs, rem) =>
        match skipWs rem with
        | ':' :: rem' =>
          match parseJsonCore fuel PMode.value rem' with
          | none => none
          | some (v, rem'') =>
            match skipWs rem'' with
            | ',' :: rem3 =>
              match parseJsonCore fuel PMode.fields rem3 with
              | some (JsVal.obj fs, rem4) => some (JsVal.obj ((String.mk kcs, v) :: fs), rem4)
              | _ => none
            | '\x7d' :: rem3 => some (JsVal.obj [(String.mk kcs, v)], rem3)
            | _ => none
        | _ => none
    | _ => none

/-- Model of `JSON.parse`: `none` is a thrown `SyntaxError` (or a stack
overflow on pathological nesting), which line 140-143 of api-helper.ts
catches. -/
def jsonParse (s : String) : Option JsVal :=
  match parseJsonCore (2 * s.length + 2) PMode.value s.data with
  | some (v, rem) =>
    match skipWs rem with
    | [] => some v
    | _ => none
  | none => none

/-! The request engine: `processApiRequest` (api-helper.ts lines 51-229),
decomposed into its sequential stages. -/

/-- One declared body expectation: `\x7b assertion: string; value?: any \x7d`. -/
structure BodyAssertion where
  assertion : String
  value : Option JsVal := none

/-- The `expect` slice of an API spec:
`\x7b status?, body?, schema? \x7d` (api-helper.ts lines 13-20). -/
structure ExpectOptions where
  status : Option Nat := none
  body : Option (List (String × BodyAssertion)) := none
  schema : Option JsVal := none

/-- A request body: `Record<string, any> | string`. -/
inductive ReqBody where
  | str (s : String)
  | obj (v : JsVal)

/-- `ApiRequestOptions` (api-helper.ts lines 6-21). -/
structure ApiRequestOptions where
  method : String
  path : String
  pathParams : Option (List (String × Prim)) := none
  queryParams : Option (List (String × QVal)) := none
  headers : Option (List (String × String)) := none
  body : Option ReqBody := none
  expect : Option ExpectOptions := none

/-- Exact-key association lookup, modelling JS object property access
`obj[k]` and `Map.get` (`none` is `undefined`). -/
def lookupAssoc {κ α : Type} [BEq κ] (hs : List (κ × α)) (k : κ) : Option α :=
  (hs.find? (fun p => p.1 == k)).map (fun p => p.2)

/-- JS property assignment `obj[k] = v` and `Map.set`: overwrite in place
(keeping the original position), else append. -/
def setAssoc {κ α : Type} [BEq κ] (hs : List (κ × α)) (k : κ) (v : α) : List (κ × α) :=
  if hs.any (fun p => p.1 == k) then hs.map (fun p => if p.1 == k then (k, v) else p)
  else hs ++ [(k, v)]

/-- JS truthiness of `headers[k]` (absent or empty string is falsy). -/
def headerTruthy (hs : List (String × String)) (k : String) : Bool :=
  match lookupAssoc hs k with
  | some v => !v.isEmpty
  | none => false

/-- `options.headers || \x7b\x7d` (api-helper.ts line 78). -/
def initHeaders (o : ApiRequestOptions) : List (String × String) := o.headers.getD []

/-- JS truthiness of `options.body` (an empty-string body is falsy, any
object is truthy). -/
def reqBodyTruthy : ReqBody → Bool
  | .str s => !s.isEmpty
  | .obj _ => true

/-- The mutable `requestOptions` object after the body-assembly step:
`headers` plus `data`, which this step only ever sets to a string. -/
structure RequestOptionsState where
  headers : List (String × String)
  data : Option String

/-- Lines 77-113: initialize `requestOptions` with the caller's headers,
then add the request body: a (truthy) string body is stored as is; a
structured body is `JSON.stringify`-ed, and `Content-Type:
application/json` is set only when neither `headers['content-type']` nor
`headers['Content-Type']` is truthy. -/
def assembleBody (o : ApiRequestOptions) : RequestOptionsState :=
  let st : RequestOptionsState := { headers := initHeaders o, data := none }
  match o.body with
  | none => st
  | some b =>
    if reqBodyTruthy b then
      match b with
      | .str s => { st with data := some s }
      | .obj v =>
        let st := { st with data := some (jsonStringify v) }
        if !headerTruthy st.headers "content-type" && !headerTruthy st.headers "Content-Type"
        then { st with headers := setAssoc st.headers "Content-Type" "application/json" }
        else st
    else st

/-- Data handed to the transport: a raw string or a parsed JS value. -/
inductive PwData where
  | str (s : String)
  | val (v : JsVal)

/-- The `playwrightOptions` object handed to the transport call. -/
structure PwOptions where
  headers : List (String × String)
  data : Option PwData

/-- Line 130-131: does a `Content-Type` or `content-type` header (those two
exact spellings) contain the substring `application/json`? -/
def includesJsonCT (hs : List (String × String)) : Bool :=
  (match lookupAssoc hs "Content-Type" with
   | some v => containsSub v.data "application/json".data
   | none => false)
  || (match lookupAssoc hs "content-type" with
      | some v => containsSub v.data "application/json".data
      | none => false)

/-- Lines 121-148: convert `requestOptions` to the Playwright format. When
`data` is truthy and a json content-type is declared, `JSON.parse` the string
data, falling back to the raw string if parsing throws; otherwise pass the
string through unchanged. -/
def toPlaywrightOptions (st : RequestOptionsState) : PwOptions :=
  match st.data with
  | none => { headers := st.headers, data := none }
  | some s =>
    if s.isEmpty then { headers := st.headers, data := none }
    else if includesJsonCT st.headers then
      match jsonParse s with
      | some v => { headers := st.headers, data := some (PwData.val v) }
      | none => { headers := st.headers, data := some (PwData.str s) }
    else { headers := st.headers, data := some (PwData.str s) }

/-- The transport's verb-specific entry points
(`request.get/post/put/delete/patch/head`). -/
inductive HttpVerb where
  | get
  | post
  | put
  | delete
  | patch
  | head
deriving DecidableEq

/-- JS `method.toLowerCase()` (ASCII; HTTP method strings are ASCII). -/
def jsToLower (s : String) : String := String.mk (s.data.map Char.toLower)

/-- The switch at lines 153-174, on `options.method.toLowerCase()`: the
transport method to use, or `none` for the `default:` branch. -/
def verbOfMethod (m : String) : Option HttpVerb :=
  let method := jsToLower m
  if method == "get" then some .get
  else if method == "post" then some .post
  else if method == "put" then some .put
  else if method == "delete" then some .delete
  else if method == "patch" then some .patch
  else if method == "head" then some .head
  else none

/-- One transport invocation: which verb was called, with which URL and
options. -/
structure Dispatch where
  verb : HttpVerb
  url : String
  headers : List (String × String)
  data : Option PwData

/-- The URL after path substitution (lines 57-74) and query construction
(lines 81-98). -/
def processUrl (o : ApiRequestOptions) : String :=
  let url := match o.pathParams with
    | some ps => substPathParams o.path ps
    | none => o.path
  appendQuery url o.queryParams

/-- Everything `processApiRequest` does before the transport call: build the
URL and options and select the transport method; the `default:` branch of
the switch throws before any transport method is invoked. -/
def buildDispatch (o : ApiRequestOptions) : Except String Dispatch :=
  let url := processUrl o
  let pw := toPlaywrightOptions (assembleBody o)
  match verbOfMethod o.method with
  | some v => .ok { verb := v, url := url, headers := pw.headers, data := pw.data }
  | none => .error ("Unsupported HTTP method: " ++ o.method)

/-- The transport calls made while processing `o`: exactly one on the
successful path, none when the method switch throws. -/
def transportCalls (o : ApiRequestOptions) : List Dispatch :=
  match buildDispatch o with
  | .ok d => [d]
  | .error _ => []

/-- The `data` handed to the transport (when a call is made). -/
def dispatchedData (o : ApiRequestOptions) : Option PwData :=
  (toPlaywrightOptions (assembleBody o)).data

/-- A stub transport response: `status()` and the parsed `json()` body. -/
structure StubResponse where
  status : Nat
  jsonBody : JsVal

/-- Lines 181-184: `expect(response.status()).toBe(options.expect.status)`,
guarded by JS truthiness of `options.expect.status` (status `0` is falsy and
skips the check). -/
def checkStatus (e : ExpectOptions) (r : StubResponse) : Except String Unit :=
  match e.status with
  | some s =>
    if s ≠ 0 then
      (if r.status = s then .ok ()
       else .error ("AssertionFailure: expected status " ++ toString s
         ++ ", received " ++ toString r.status))
    else .ok ()
  | none => .ok ()

/-- One iteration of the forEach at lines 191-208: extract the value at the
dot path, then switch on the assertion kind; the `default:` branch throws an
unsupported-assertion error. -/
def evalBodyAssertion (responseBody : JsVal) (path : String) (a : BodyAssertion) :
    Except String Unit :=
  let value := getValueByPath responseBody path
  if a.assertion == "toBeDefined" then
    match value with
    | .undefined => .error "AssertionFailure: expected value to be defined"
    | _ => .ok ()
  else if a.assertion == "toEqual" then
    (if JsVal.beq value (a.value.getD .undefined) then .ok ()
     else .error "AssertionFailure: toEqual mismatch")
  else if a.assertion == "toContain" then
    (match value with
     | .str s =>
       (match a.value.getD .undefined with
        | .str t => if containsSub s.data t.data then .ok ()
                    else .error "AssertionFailure: toContain mismatch"
        | _ => .error "AssertionFailure: toContain mismatch")
     | .arr xs => if xs.contains (a.value.getD .undefined) then .ok ()
                  else .error "AssertionFailure: toContain mismatch"
     | _ => .error "AssertionFailure: toContain on a non-container")
  else .error ("Unsupported assertion: " ++ a.assertion)

/-- The forEach at lines 191-208 in entry order; a thrown error aborts the
iteration and propagates. -/
def evalBodyAssertions (responseBody : JsVal) :
    List (String × BodyAssertion) → Except String Unit
  | [] => .ok ()
  | (p, a) :: rest =>
    match evalBodyAssertion responseBody p a with
    | .ok _ => evalBodyAssertions responseBody rest
    | .error e => .error e

/-- Lines 179-222: status check, then body assertions against
`response.json()`; the schema expectation is intentionally a no-op in the
source (lines 212-221). -/
def processExpectations (e : Option ExpectOptions) (r : StubResponse) : Except String Unit :=
  match e with
  | none => .ok ()
  | some ex =>
    match checkStatus ex r with
    | .error msg => .error msg
    | .ok _ =>
      match ex.body with
      | some entries => evalBodyAssertions r.jsonBody entries
      | none => .ok ()

/-- `processApiRequest` against a stub transport. The catch at lines 225-228
logs and rethrows, so errors propagate to the caller unchanged. -/
def execute (o : ApiRequestOptions) (transport : Dispatch → StubResponse) :
    Except String StubResponse :=
  match buildDispatch o with
  | .error e => .error e
  | .ok d =>
    let r := transport d
    match processExpectations o.expect r with
    | .ok _ => .ok r
    | .error e => .error e

/-! Generic facts about `setAssoc`/`lookupAssoc`, shared by the header
assembly and the metadata registry. -/

section AssocLemmas

variable {κ α : Type} [BEq κ] [LawfulBEq κ]

/-- Overwriting an existing key puts `(k, v)` where the scan first finds `k`. -/
theorem find?_map_overwrite (hs : List (κ × α)) (k : κ) (v : α)
    (h : hs.any (fun p => p.1 == k) = true) :
    (hs.map (fun p => if p.1 == k then (k, v) else p)).find? (fun p => p.1 == k)
      = some (k, v) := by
  induction hs with
  | nil => cases h
  | cons e t ih =>
    rw [List.map_cons]
    by_cases he : (e.1 == k) = true
    · rw [if_pos he, List.find?_cons]
      simp
    · rw [if_neg he, List.find?_cons]
      have he' : (e.1 == k) = false := Bool.eq_false_iff.mpr he
      rw [he']
      rw [List.any_cons, he', Bool.false_or] at h
      exact ih h

/-- Appending `(k, v)` after entries that all miss `k` makes the scan find
`(k, v)`. -/
theorem find?_append_single (hs : List (κ × α)) (k : κ) (v : α)
    (h : hs.any (fun p => p.1 == k) = false) :
    (hs ++ [(k, v)]).find? (fun p => p.1 == k) = some (k, v) := by
  induction hs with
  | nil => simp [List.find?_cons]
  | cons e t ih =>
    rw [List.cons_append, List.find?_cons]
    rw [List.any_cons, Bool.or_eq_false_iff] at h
    rw [h.1]
    exact ih h.2

/-- After `setAssoc hs k v`, looking up `k` yields exactly `v`. -/
theorem lookupAssoc_setAssoc_self (hs : List (κ × α)) (k : κ) (v : α) :
    lookupAssoc (setAssoc hs k v) k = some v := by
  rw [lookupAssoc, setAssoc]
  by_cases h : hs.any (fun p => p.1 == k) = true
  · rw [if_pos h, find?_map_overwrite hs k v h]
    rfl
  · rw [if_neg h, find?_append_single hs k v (Bool.eq_false_iff.mpr h)]
    rfl

/-- The scan for a key other than `k` ignores an appended `(k, v)` entry. -/
theorem find?_append_miss (hs : List (κ × α)) (k k' : κ) (v : α)
    (h1 : (k == k') = false) :
    (hs ++ [(k, v)]).find? (fun p => p.1 == k') = hs.find? (fun p => p.1 == k') := by
  induction hs with
  | nil => simp [List.find?_cons, h1]
  | cons e t ih =>
    rw [List.cons_append, List.find?_cons, List.find?_cons]
    cases hek : e.1 == k' with
    | true => rfl
    | false => exact ih

/-- The scan for a key other than `k` is unaffected by overwriting `k`. -/
theorem find?_map_overwrite_miss (hs : List (κ × α)) (k k' : κ) (v : α)
    (h1 : (k == k') = false) :
    (hs.map (fun p => if p.1 == k then (k, v) else p)).find? (fun p => p.1 == k')
      = hs.find? (fun p => p.1 == k') := by
  induction hs with
  | nil => rfl
  | cons e t ih =>
    rw [List.map_cons, List.find?_cons, List.find?_cons]
    by_cases he : (e.1 == k) = true
    · have h2 : (e.1 == k') = false := by
        rw [Bool.eq_false_iff]
        intro hek
        rw [eq_of_beq he] at hek
        exact absurd hek (Bool.eq_false_iff.mp h1)
      rw [if_pos he, h2]
      simp only [h1]
      exact ih
    · rw [if_neg he]
      cases hek : e.1 == k' with
      | true => rfl
      | false => exact ih

/-- `setAssoc` at key `k` does not affect lookups of other keys. -/
theorem lookupAssoc_setAssoc_ne (hs : List (κ × α)) (k k' : κ) (v : α)
    (hne : k' ≠ k) : lookupAssoc (setAssoc hs k v) k' = lookupAssoc hs k' := by
  have h1 : (k == k') = false := by
    rw [Bool.eq_false_iff]
    intro hkk
    exact hne (eq_of_beq hkk).symm
  rw [lookupAssoc, lookupAssoc, setAssoc]
  by_cases h : hs.any (fun p => p.1 == k) = true
  · rw [if_pos h, find?_map_overwrite_miss hs k k' v h1]
  · rw [if_neg h, find?_append_miss hs k k' v h1]

/-- `setAssoc` always records the key: the stored key is present afterwards. -/
theorem any_setAssoc_self (hs : List (κ × α)) (k : κ) (v : α) :
    (setAssoc hs k v).any (fun p => p.1 == k) = true := by
  have hfind : (setAssoc hs k v).find? (fun p => p.1 == k) = some (k, v) := by
    rw [setAssoc]
    by_cases h : hs.any (fun p => p.1 == k) = true
    · rw [if_pos h]; exact find?_map_overwrite hs k v h
    · rw [if_neg h]; exact find?_append_single hs k v (Bool.eq_false_iff.mpr h)
  refine List.any_eq_true.mpr ⟨(k, v), List.mem_of_find?_eq_some hfind, ?_⟩
  show ((k, v).1 == k) = true
  simp

/-- Overwriting an existing key leaves the key sequence unchanged. -/
theorem map_fst_setAssoc_of_any (hs : List (κ × α)) (k : κ) (v : α)
    (h : hs.any (fun p => p.1 == k) = true) :
    (setAssoc hs k v).map Prod.fst = hs.map Prod.fst := by
  rw [setAssoc, if_pos h]
  clear h
  induction hs with
  | nil => rfl
  | cons e t ih =>
    rw [List.map_cons, List.map_cons, List.map_cons]
    by_cases he : (e.1 == k) = true
    · rw [if_pos he]
      have h1 : Prod.fst (k, v) = e.1 := (eq_of_beq he).symm
      rw [h1, ih]
    · rw [if_neg he, ih]

/-- Appending under a fresh key: `setAssoc` is exactly an append. -/
theorem setAssoc_of_any_eq_false (hs : List (κ × α)) (k : κ) (v : α)
    (h : hs.any (fun p => p.1 == k) = false) :
    setAssoc hs k v = hs ++ [(k, v)] := by
  rw [setAssoc, if_neg (by rw [h]; exact Bool.false_ne_true)]

end AssocLemmas

/-- Claim C3: for every `ApiSpec` whose method is not one of GET, POST, PUT,
DELETE, PATCH, HEAD (up to case), `execute` fails with the
unsupported-method configuration error, and no transport method is invoked
for such a spec. -/
theorem unsupported_method_fails_before_transport (o : ApiRequestOptions)
    (h : jsToLower o.method ∉ ["get", "post", "put", "delete", "patch", "head"]) :
    buildDispatch o = .error ("Unsupported HTTP method: " ++ o.method)
    ∧ transportCalls o = [] := by
  simp only [List.mem_cons, List.mem_singleton, not_or] at h
  obtain ⟨n1, n2, n3, n4, n5, n6⟩ := h
  have hv : verbOfMethod o.method = none := by
    simp [verbOfMethod, n1, n2, n3, n4, n5, n6]
  constructor
  · simp [buildDispatch, hv]
  · simp [transportCalls, buildDispatch, hv]

/-- Witness for C3: the spec's end-to-end scenario 3, `method: "TRACE"`. -/
theorem unsupported_method_fails_before_transport_witness :
    jsToLower "TRACE" ∉ ["get", "post", "put", "delete", "patch", "head"]
    ∧ transportCalls { method := "TRACE", path := "/x" } = [] :=
  ⟨by decide,
   (unsupported_method_fails_before_transport { method := "TRACE", path := "/x" }
      (by decide)).2⟩

/-- Claim C10: HTTP method matching is case-insensitive: the method string is
lower-cased before dispatch, the transport calls made depend on the method
string only through its lower-casing, and any capitalization of a supported
verb (e.g. `"get"`, `"GET"`, `"GeT"`) selects the same transport call. -/
theorem method_matching_case_insensitive :
    (∀ m₁ m₂ : String, jsToLower m₁ = jsToLower m₂ → verbOfMethod m₁ = verbOfMethod m₂)
    ∧ (∀ (o : ApiRequestOptions) (m : String), jsToLower o.method = jsToLower m →
        transportCalls o = transportCalls { o with method := m })
    ∧ verbOfMethod "get" = some HttpVerb.get
    ∧ verbOfMethod "GET" = some HttpVerb.get
    ∧ verbOfMethod "GeT" = some HttpVerb.get := by
  have hcong : ∀ m₁ m₂ : String, jsToLower m₁ = jsToLower m₂ →
      verbOfMethod m₁ = verbOfMethod m₂ := by
    intro m₁ m₂ h
    rw [verbOfMethod, verbOfMethod, h]
  refine ⟨hcong, ?_, by decide, by decide, by decide⟩
  intro o m h
  have hv : verbOfMethod o.method = verbOfMethod m := hcong _ _ h
  rw [transportCalls, transportCalls, buildDispatch, buildDispatch]
  simp only [hv]
  cases hvm : verbOfMethod m with
  | none => rfl
  | some v => rfl

/-- Witness for C10: `"GeT"` and `"get"` produce the same transport calls on
a concrete spec. -/
theorem method_matching_case_insensitive_witness :
    transportCalls { method := "GeT", path := "/x" }
      = transportCalls { method := "get", path := "/x" } :=
  method_matching_case_insensitive.2.1 { method := "GeT", path := "/x" } "get" (by decide)

/-- Counterexample to C4 as stated: a string body is NOT always passed
through unmodified. With body `"\x7b\x7d"` and the caller-set header
`Content-Type: application/json`, lines 130-143 of api-helper.ts re-parse
the string and hand the parsed object — not the original string — to the
transport. -/
theorem string_body_reparsed_counterexample :
    dispatchedData { method := "post"
                     path := "/x"
                     headers := some [("Content-Type", "application/json")]
                     body := some (ReqBody.str "\x7b\x7d") }
      = some (PwData.val (JsVal.obj []))
    ∧ some (PwData.val (JsVal.obj [])) ≠ some (PwData.str "\x7b\x7d") :=
  ⟨rfl, by intro h; injection h with h2; exact PwData.noConfusion h2⟩

/-- Claim C4, amended: a nonempty string body is passed to the transport
unmodified when no declared `Content-Type`/`content-type` header (those two
exact spellings) contains `application/json`; when one does, the engine
re-parses the string with `JSON.parse`, dispatching the parsed structure on
success and the unmodified string on failure. An empty string body is falsy
and is not attached at all. -/
theorem string_body_passthrough_unless_json_content_type
    (o : ApiRequestOptions) (s : String) (hb : o.body = some (ReqBody.str s)) :
    (s = "" → dispatchedData o = none)
    ∧ (s ≠ "" → includesJsonCT (initHeaders o) = false →
        dispatchedData o = some (PwData.str s))
    ∧ (s ≠ "" → includesJsonCT (initHeaders o) = true →
        dispatchedData o = (match jsonParse s with
                            | some v => some (PwData.val v)
                            | none => some (PwData.str s))) := by
  refine ⟨?_, ?_, ?_⟩
  · intro hs
    subst hs
    simp +decide [dispatchedData, assembleBody, hb, reqBodyTruthy, toPlaywrightOptions]
  · intro hs hj
    have hse : s.isEmpty = false := by
      rw [Bool.eq_false_iff]
      intro h
      exact hs ((String.isEmpty_iff s).mp h)
    simp [dispatchedData, assembleBody, hb, reqBodyTruthy, hse, toPlaywrightOptions, hj]
  · intro hs hj
    have hse : s.isEmpty = false := by
      rw [Bool.eq_false_iff]
      intro h
      exact hs ((String.isEmpty_iff s).mp h)
    cases hp : jsonParse s with
    | some v =>
      simp [dispatchedData, assembleBody, hb, reqBodyTruthy, hse, toPlaywrightOptions, hj, hp]
    | none =>
      simp [dispatchedData, assembleBody, hb, reqBodyTruthy, hse, toPlaywrightOptions, hj, hp]

/-- Witness for the amended C4: a string body with no json content-type
passes through unchanged. -/
theorem string_body_passthrough_unless_json_content_type_witness :
    dispatchedData { method := "post", path := "/x", body := some (ReqBody.str "hello") }
      = some (PwData.str "hello") :=
  (string_body_passthrough_unless_json_content_type
      { method := "post", path := "/x", body := some (ReqBody.str "hello") } "hello"
      rfl).2.1 (by decide) rfl

/-- Counterexample to C5 as stated: the already-set check is NOT
case-insensitive over header-name spellings. The caller sets a content-type
under the spelling `CONTENT-TYPE` (case-insensitively equal to
`Content-Type`), yet line 108 checks only the two exact spellings
`content-type` and `Content-Type`, so the default is still applied. -/
theorem content_type_default_despite_other_capitalization :
    (assembleBody { method := "post"
                    path := "/x"
                    headers := some [("CONTENT-TYPE", "text/plain")]
                    body := some (ReqBody.obj (JsVal.obj [])) }).headers
      = [("CONTENT-TYPE", "text/plain"), ("Content-Type", "application/json")]
    ∧ jsToLower "CONTENT-TYPE" = jsToLower "Content-Type" :=
  ⟨rfl, rfl⟩

/-- Claim C5, amended: for a structured (non-string) body the engine
serializes it to JSON text, and sets `Content-Type: application/json` if and
only if the caller did not already set a truthy content-type under one of
the two exact spellings `content-type` or `Content-Type` (other
capitalizations do not suppress the default). -/
theorem structured_body_serializes_and_defaults_content_type
    (o : ApiRequestOptions) (v : JsVal) (hb : o.body = some (ReqBody.obj v)) :
    (assembleBody o).data = some (jsonStringify v)
    ∧ ((headerTruthy (initHeaders o) "content-type"
          || headerTruthy (initHeaders o) "Content-Type") = true →
        (assembleBody o).headers = initHeaders o)
    ∧ ((headerTruthy (initHeaders o) "content-type"
          || headerTruthy (initHeaders o) "Content-Type") = false →
        lookupAssoc (assembleBody o).headers "Content-Type" = some "application/json") := by
  refine ⟨?_, ?_, ?_⟩
  · cases h1 : headerTruthy (initHeaders o) "content-type" <;>
      cases h2 : headerTruthy (initHeaders o) "Content-Type" <;>
      simp [assembleBody, hb, reqBodyTruthy, h1, h2]
  · intro h
    cases h1 : headerTruthy (initHeaders o) "content-type" <;>
      cases h2 : headerTruthy (initHeaders o) "Content-Type" <;>
      rw [h1, h2] at h <;>
      simp [assembleBody, hb, reqBodyTruthy, h1, h2] <;>
      cases h
  · intro h
    cases h1 : headerTruthy (initHeaders o) "content-type" <;>
      cases h2 : headerTruthy (initHeaders o) "Content-Type" <;>
      rw [h1, h2] at h <;>
      simp [assembleBody, hb, reqBodyTruthy, h1, h2, lookupAssoc_setAssoc_self] <;>
      cases h

/-- Witness for the amended C5: with no caller headers, the body is
serialized and the json content-type default is applied. -/
theorem structured_body_serializes_and_defaults_content_type_witness :
    (assembleBody { method := "post"
                    path := "/x"
                    body := some (ReqBody.obj (JsVal.obj [("a", JsVal.num 1)])) }).data
      = some (jsonStringify (JsVal.obj [("a", JsVal.num 1)]))
    ∧ lookupAssoc (assembleBody { method := "post"
                                  path := "/x"
                                  body := some (ReqBody.obj (JsVal.obj [("a", JsVal.num 1)])) }).headers
        "Content-Type" = some "application/json" :=
  ⟨(structured_body_serializes_and_defaults_content_type
      { method := "post"
        path := "/x"
        body := some (ReqBody.obj (JsVal.obj [("a", JsVal.num 1)])) }
      (JsVal.obj [("a", JsVal.num 1)]) rfl).1,
   (structured_body_serializes_and_defaults_content_type
      { method := "post"
        path := "/x"
        body := some (ReqBody.obj (JsVal.obj [("a", JsVal.num 1)])) }
      (JsVal.obj [("a", JsVal.num 1)]) rfl).2.2 rfl⟩

/-- Assertions are evaluated in order: once a prefix succeeds, evaluation
continues with the remaining entries. -/
theorem evalBodyAssertions_append_of_ok (b : JsVal)
    (pre rest : List (String × BodyAssertion))
    (hpre : evalBodyAssertions b pre = .ok ()) :
    evalBodyAssertions b (pre ++ rest) = evalBodyAssertions b rest := by
  induction pre with
  | nil => rfl
  | cons e t ih =>
    obtain ⟨p, a⟩ := e
    rw [evalBodyAssertions] at hpre
    rw [List.cons_append, evalBodyAssertions]
    cases he : evalBodyAssertion b p a with
    | ok u => rw [he] at hpre; exact ih hpre
    | error msg => rw [he] at hpre; cases hpre

/-- Claim C8: a body expectation whose assertion kind is outside the fixed
set `toBeDefined`/`toEqual`/`toContain` makes assertion evaluation throw the
unsupported-assertion configuration error at the moment that expectation is
reached (whatever follows it is irrelevant), and the error propagates to the
caller of `execute` rather than being swallowed. -/
theorem unsupported_assertion_raises_and_propagates
    (o : ApiRequestOptions) (transport : Dispatch → StubResponse) (d : Dispatch)
    (ex : ExpectOptions) (pre post : List (String × BodyAssertion))
    (p : String) (a : BodyAssertion)
    (hd : buildDispatch o = .ok d)
    (he : o.expect = some ex)
    (hst : checkStatus ex (transport d) = .ok ())
    (hbody : ex.body = some (pre ++ (p, a) :: post))
    (hbad : a.assertion ∉ ["toBeDefined", "toEqual", "toContain"])
    (hpre : evalBodyAssertions (transport d).jsonBody pre = .ok ()) :
    execute o transport = .error ("Unsupported assertion: " ++ a.assertion) := by
  simp only [List.mem_cons, List.mem_singleton, not_or] at hbad
  obtain ⟨n1, n2, n3⟩ := hbad
  have hone : evalBodyAssertion (transport d).jsonBody p a
      = .error ("Unsupported assertion: " ++ a.assertion) := by
    simp [evalBodyAssertion, n1, n2, n3]
  have hall : evalBodyAssertions (transport d).jsonBody (pre ++ (p, a) :: post)
      = .error ("Unsupported assertion: " ++ a.assertion) := by
    rw [evalBodyAssertions_append_of_ok _ _ _ hpre, evalBodyAssertions, hone]
  simp [execute, hd, processExpectations, he, hst, hbody, hall]

/-- Witness for C8: a spec whose second body expectation uses the unsupported
kind `toBeWeird`, after a passing `toBeDefined`, against a stub transport. -/
theorem unsupported_assertion_raises_and_propagates_witness :
    execute { method := "get"
              path := "/u"
              expect := some { status := some 200
                               body := some [("id", { assertion := "toBeDefined" }),
                                             ("name", { assertion := "toBeWeird" })] } }
        (fun _ => { status := 200, jsonBody := JsVal.obj [("id", JsVal.num 1)] })
      = .error ("Unsupported assertion: " ++ "toBeWeird") :=
  unsupported_assertion_raises_and_propagates
    { method := "get"
      path := "/u"
      expect := some { status := some 200
                       body := some [("id", { assertion := "toBeDefined" }),
                                     ("name", { assertion := "toBeWeird" })] } }
    (fun _ => { status := 200, jsonBody := JsVal.obj [("id", JsVal.num 1)] })
    { verb := HttpVerb.get, url := "/u", headers := [], data := none }
    { status := some 200
      body := some [("id", { assertion := "toBeDefined" }),
                    ("name", { assertion := "toBeWeird" })] }
    [("id", { assertion := "toBeDefined" })] [] "name" { assertion := "toBeWeird" }
    rfl rfl rfl rfl (by decide) rfl

/-! The metadata registry (`MetadataStorage` in playwright-core) and the
decorator registration/resolution pipeline. -/

/-- `MetadataType`: `'suite' | 'test' | 'hook'`. -/
inductive MetadataType where
  | suite
  | test
  | hook
deriving DecidableEq

/-- An identity token under which a record is filed: a function object
(identified by reference id, carrying its `.name`), a string property key,
or a class (constructor) object. `Map` keys compare by identity. -/
inductive Token where
  | fn (id : Nat) (name : String)
  | key (s : String)
  | cls (id : Nat) (name : String)
deriving DecidableEq

/-- The partial API options accumulated by decorators
(`metadata.options.api`). -/
structure ApiOptions where
  method : Option String := none
  path : Option String := none
  pathParams : Option (List (String × Prim)) := none
  queryParams : Option (List (String × QVal)) := none
  headers : Option (List (String × String)) := none
  body : Option ReqBody := none
  expect : Option ExpectOptions := none

/-- `metadata.options`: execution modifiers plus the nested API slice. -/
structure TestOptions where
  only : Option Bool := none
  skip : Option Bool := none
  slow : Option Bool := none
  slowReason : Option String := none
  tags : Option (List String) := none
  hasApiTests : Option Bool := none
  api : Option ApiOptions := none

/-- `DecoratorMetadata`: `\x7b type, name, options \x7d`. -/
structure DecoratorMetadata where
  type : MetadataType
  name : String
  options : TestOptions

/-- The singleton `MetadataStorage`: a JS `Map<any, DecoratorMetadata>`. -/
structure MetadataStorage where
  entries : List (Token × DecoratorMetadata)

/-- `store(target, metadata)`: `Map.set` — replace the whole record in place
when the key exists, else append. -/
def MetadataStorage.store (st : MetadataStorage) (t : Token) (m : DecoratorMetadata) :
    MetadataStorage :=
  ⟨setAssoc st.entries t m⟩

/-- `get(target)`: `Map.get`. -/
def MetadataStorage.get (st : MetadataStorage) (t : Token) : Option DecoratorMetadata :=
  lookupAssoc st.entries t

/-- `has(target)`: `Map.has`. -/
def MetadataStorage.has (st : MetadataStorage) (t : Token) : Bool :=
  st.entries.any (fun p => p.1 == t)

/-- `getAll()`: the map itself, iterated in insertion order. -/
def MetadataStorage.getAll (st : MetadataStorage) : List (Token × DecoratorMetadata) :=
  st.entries

/-- Claim C9: storing under a token already holding a record replaces the
whole record, so a subsequent `get` returns exactly the new record; `store`
never rejects (the stored token is always present afterwards); and `getAll`
reflects insertion order — a fresh key is appended at the end, an
overwritten key keeps the original key sequence. -/
theorem metadata_store_replaces_whole_record_in_insertion_order :
    (∀ (st : MetadataStorage) (t : Token) (r1 r2 : DecoratorMetadata),
        ((st.store t r1).store t r2).get t = some r2)
    ∧ (∀ (st : MetadataStorage) (t : Token) (r : DecoratorMetadata),
        (st.store t r).has t = true)
    ∧ (∀ (st : MetadataStorage) (t : Token) (r : DecoratorMetadata),
        st.has t = false → (st.store t r).getAll = st.getAll ++ [(t, r)])
    ∧ (∀ (st : MetadataStorage) (t : Token) (r : DecoratorMetadata),
        st.has t = true → (st.store t r).getAll.map Prod.fst = st.getAll.map Prod.fst) :=
  ⟨fun st t r1 r2 => lookupAssoc_setAssoc_self _ t r2,
   fun st t r => any_setAssoc_self _ t r,
   fun st t r h => congrArg MetadataStorage.entries
     (congrArg MetadataStorage.mk (setAssoc_of_any_eq_false _ t r h)),
   fun st t r h => map_fst_setAssoc_of_any _ t r h⟩

/-- Witness for C9: both ordering parts at concrete registry states. -/
theorem metadata_store_replaces_whole_record_in_insertion_order_witness :
    (((⟨[]⟩ : MetadataStorage).store (Token.key "m")
        { type := MetadataType.test, name := "m", options := {} }).store (Token.key "m")
        { type := MetadataType.hook, name := "h", options := {} }).get (Token.key "m")
      = some { type := MetadataType.hook, name := "h", options := {} }
    ∧ ((⟨[]⟩ : MetadataStorage).store (Token.key "m")
        { type := MetadataType.test, name := "m", options := {} }).getAll
      = [] ++ [(Token.key "m", { type := MetadataType.test, name := "m", options := {} })] :=
  ⟨metadata_store_replaces_whole_record_in_insertion_order.1 ⟨[]⟩ (Token.key "m")
      { type := MetadataType.test, name := "m", options := {} }
      { type := MetadataType.hook, name := "h", options := {} },
   metadata_store_replaces_whole_record_in_insertion_order.2.2.1 ⟨[]⟩ (Token.key "m")
      { type := MetadataType.test, name := "m", options := {} } rfl⟩

/-! Decorator registration (the stage-3 branches of the API decorators) and
the suite decorator's resolution of a member's effective API options. -/

/-- The fresh record each decorator creates when the method has no metadata
yet: `\x7b type: 'test', name: String(propertyKey), options: \x7b\x7d \x7d`. -/
def defaultTestMetadata (name : String) : DecoratorMetadata :=
  { type := MetadataType.test, name := name, options := {} }

/-- The record a stage-3 API decorator stores for the method: take the
existing record (or the fresh default), ensure `options.api` exists, and
apply the decorator's own field updates `g` to it. -/
def mergedRecordAt (st : MetadataStorage) (tok : Token) (name : String)
    (g : ApiOptions → ApiOptions) : DecoratorMetadata :=
  let metadata := (st.get tok).getD (defaultTestMetadata name)
  let api := metadata.options.api.getD {}
  { metadata with options := { metadata.options with api := some (g api) } }

/-- The get-ensure-set-store skeleton shared by every stage-3 API decorator
(e.g. expect-status.decorator.ts lines 25-51). -/
def updateApiAt (st : MetadataStorage) (tok : Token) (name : String)
    (g : ApiOptions → ApiOptions) : MetadataStorage :=
  st.store tok (mergedRecordAt st tok name g)

/-- One API-spec fragment: which decorator was applied with which payload. -/
inductive ApiFragment where
  | endpoint (method path : String)
  | pathParams (ps : List (String × Prim))
  | queryParams (qs : List (String × QVal))
  | headers (hs : List (String × String))
  | body (b : ReqBody)
  | expectStatus (status : Nat)
  | expectBodyPath (path : String) (a : BodyAssertion)
  | expectSchema (v : JsVal)

/-- Registration of one fragment for the member whose function object is
`tokFn` (named `propertyKey`), declared on the class token `clsTok`. The
stores at `descriptor.value` and at the prototype slot hit the same `Map`
key as `originalMethod` (they are the same function object) and are modelled
by the single `updateApiAt` store. `ApiEndpoint` additionally stores a fresh
partial record under the property key and a suite marker under the class;
`Headers`/`RequestBody` additionally mirror the merged record under the
property key. -/
def applyFragment (tokFn : Token) (propertyKey : String) (clsTok : Token) (clsName : String)
    (st : MetadataStorage) : ApiFragment → MetadataStorage
  | .endpoint method path =>
    ((updateApiAt st tokFn propertyKey
        (fun api => { api with method := some method, path := some path })).store
      (Token.key propertyKey)
      { type := MetadataType.test
        name := propertyKey
        options := { api := some { method := some method, path := some path } } }).store
      clsTok
      { type := MetadataType.suite
        name := clsName
        options := { hasApiTests := some true } }
  | .pathParams ps =>
    updateApiAt st tokFn propertyKey (fun api => { api with pathParams := some ps })
  | .queryParams qs =>
    updateApiAt st tokFn propertyKey (fun api => { api with queryParams := some qs })
  | .headers hs =>
    (updateApiAt st tokFn propertyKey (fun api => { api with headers := some hs })).store
      (Token.key propertyKey)
      (mergedRecordAt st tokFn propertyKey (fun api => { api with headers := some hs }))
  | .body b =>
    (updateApiAt st tokFn propertyKey (fun api => { api with body := some b })).store
      (Token.key propertyKey)
      (mergedRecordAt st tokFn propertyKey (fun api => { api with body := some b }))
  | .expectStatus status =>
    updateApiAt st tokFn propertyKey (fun api =>
      let e := api.expect.getD {}
      { api with expect := some { e with status := some status } })
  | .expectBodyPath path a =>
    updateApiAt st tokFn propertyKey (fun api =>
      let e := api.expect.getD {}
      { api with expect := some { e with body := some (setAssoc (e.body.getD []) path a) } })
  | .expectSchema v =>
    updateApiAt st tokFn propertyKey (fun api =>
      let e := api.expect.getD {}
      { api with expect := some { e with schema := some v } })

/-- Registration of a sequence of fragments, in registry insertion order. -/
def registerFragments (tokFn : Token) (propertyKey : String) (clsTok : Token)
    (clsName : String) (st : MetadataStorage) (fs : List ApiFragment) : MetadataStorage :=
  fs.foldl (applyFragment tokFn propertyKey clsTok clsName) st

/-- Strategy 3a of the suite decorator (suite.decorator.ts lines 229-241):
the first string-key entry whose key equals the method name and which holds
API options. -/
def findApiByKeyName (st : MetadataStorage) (methodName : String) : Option ApiOptions :=
  (st.getAll.find? (fun p =>
    match p.1 with
    | Token.key s => s == methodName && p.2.options.api.isSome
    | _ => false)).bind (fun p => p.2.options.api)

/-- Strategy 3b (lines 244-255): the first function-or-named-object entry
whose `.name` equals the method name and which holds API options. -/
def findApiByFnName (st : MetadataStorage) (methodName : String) : Option ApiOptions :=
  (st.getAll.find? (fun p =>
    match p.1 with
    | Token.fn _ n => n == methodName && p.2.options.api.isSome
    | Token.cls _ n => n == methodName && p.2.options.api.isSome
    | _ => false)).bind (fun p => p.2.options.api)

/-- The suite decorator's retrieval of a member's effective API options
(suite.decorator.ts lines 209-266): the record stored for the prototype
method function (strategies 1, 2 and 3c all read this same `Map` key), then
the property-key scan, then the name scan. -/
def resolveApiOptions (st : MetadataStorage) (tokFn : Token) (methodName : String) :
    Option ApiOptions :=
  match (st.get tokFn).bind (fun m => m.options.api) with
  | some api => some api
  | none =>
    match findApiByKeyName st methodName with
    | some api => some api
    | none =>
      match findApiByFnName st methodName with
      | some api => some api
      | none => (st.get tokFn).bind (fun m => m.options.api)

/-- Modelled from the spec (§4.2, step 2): field-level overwrite of one
fragment's fields into the accumulated API options — later entries' fields
win, fields the fragment does not define are retained (body expectations
merge per dot-path key). Used as the specification-side merge to compare
resolution against. -/
def mergeFragmentApi (api : ApiOptions) : ApiFragment → ApiOptions
  | .endpoint method path => { api with method := some method, path := some path }
  | .pathParams ps => { api with pathParams := some ps }
  | .queryParams qs => { api with queryParams := some qs }
  | .headers hs => { api with headers := some hs }
  | .body b => { api with body := some b }
  | .expectStatus status =>
    let e := api.expect.getD {}
    { api with expect := some { e with status := some status } }
  | .expectBodyPath path a =>
    let e := api.expect.getD {}
    { api with expect := some { e with body := some (setAssoc (e.body.getD []) path a) } }
  | .expectSchema v =>
    let e := api.expect.getD {}
    { api with expect := some { e with schema := some v } }

/-- Modelled from the spec: the effective API options of a fragment list,
merged by field-level overwrite in insertion order starting from the empty
fragment. -/
def mergeFragments (fs : List ApiFragment) : ApiOptions :=
  fs.foldl mergeFragmentApi {}

/-- `store` under a different token does not change what `get` returns. -/
theorem MetadataStorage.get_store_ne (st : MetadataStorage) (t t' : Token)
    (r : DecoratorMetadata) (h : t' ≠ t) : (st.store t r).get t' = st.get t' :=
  lookupAssoc_setAssoc_ne st.entries t t' r h

/-- After a decorator's get-ensure-set-store, the method's record holds the
updated API options (computed from the previously stored record). -/
theorem updateApiAt_get (st : MetadataStorage) (tok : Token) (name : String)
    (g : ApiOptions → ApiOptions) (m : DecoratorMetadata) (h : st.get tok = some m) :
    (updateApiAt st tok name g).get tok
      = some { m with options := { m.options with api := some (g (m.options.api.getD {})) } } := by
  show lookupAssoc (setAssoc st.entries tok _) tok = _
  rw [lookupAssoc_setAssoc_self, mergedRecordAt, h]
  rfl

/-- The first decorator applied to an unregistered method starts from the
fresh default record. -/
theorem updateApiAt_get_none (st : MetadataStorage) (tok : Token) (name : String)
    (g : ApiOptions → ApiOptions) (h : st.get tok = none) :
    (updateApiAt st tok name g).get tok
      = some { type := MetadataType.test, name := name, options := { api := some (g {}) } } := by
  show lookupAssoc (setAssoc st.entries tok _) tok = _
  rw [lookupAssoc_setAssoc_self, mergedRecordAt, h]
  rfl

/-- Applying one fragment to an already-registered method updates exactly
the fragment's fields of the stored API options — i.e. performs one
field-level-overwrite merge step. -/
theorem applyFragment_get (fid cid : Nat) (fname clsName : String)
    (st : MetadataStorage) (f : ApiFragment) (m : DecoratorMetadata)
    (h : st.get (Token.fn fid fname) = some m) :
    (applyFragment (Token.fn fid fname) fname (Token.cls cid clsName) clsName st f).get
        (Token.fn fid fname)
      = some { m with options := { m.options with
          api := some (mergeFragmentApi (m.options.api.getD {}) f) } } := by
  cases f with
  | endpoint method path =>
    show (((updateApiAt st _ _ _).store (Token.key fname) _).store
        (Token.cls cid clsName) _).get _ = _
    rw [MetadataStorage.get_store_ne _ _ _ _ (fun hh => Token.noConfusion hh),
        MetadataStorage.get_store_ne _ _ _ _ (fun hh => Token.noConfusion hh),
        updateApiAt_get _ _ _ _ m h]
    rfl
  | pathParams ps => exact updateApiAt_get _ _ _ _ m h
  | queryParams qs => exact updateApiAt_get _ _ _ _ m h
  | headers hs =>
    show ((updateApiAt st _ _ _).store (Token.key fname) _).get _ = _
    rw [MetadataStorage.get_store_ne _ _ _ _ (fun hh => Token.noConfusion hh),
        updateApiAt_get _ _ _ _ m h]
    rfl
  | body b =>
    show ((updateApiAt st _ _ _).store (Token.key fname) _).get _ = _
    rw [MetadataStorage.get_store_ne _ _ _ _ (fun hh => Token.noConfusion hh),
        updateApiAt_get _ _ _ _ m h]
    rfl
  | expectStatus status => exact updateApiAt_get _ _ _ _ m h
  | expectBodyPath path a => exact updateApiAt_get _ _ _ _ m h
  | expectSchema v => exact updateApiAt_get _ _ _ _ m h

/-- Applying one fragment to a fresh method creates the default test record
with the fragment's fields merged into empty API options. -/
theorem applyFragment_get_none (fid cid : Nat) (fname clsName : String)
    (st : MetadataStorage) (f : ApiFragment)
    (h : st.get (Token.fn fid fname) = none) :
    (applyFragment (Token.fn fid fname) fname (Token.cls cid clsName) clsName st f).get
        (Token.fn fid fname)
      = some { type := MetadataType.test
               name := fname
               options := { api := some (mergeFragmentApi {} f) } } := by
  cases f with
  | endpoint method path =>
    show (((updateApiAt st _ _ _).store (Token.key fname) _).store
        (Token.cls cid clsName) _).get _ = _
    rw [MetadataStorage.get_store_ne _ _ _ _ (fun hh => Token.noConfusion hh),
        MetadataStorage.get_store_ne _ _ _ _ (fun hh => Token.noConfusion hh),
        updateApiAt_get_none _ _ _ _ h]
    rfl
  | pathParams ps => exact updateApiAt_get_none _ _ _ _ h
  | queryParams qs => exact updateApiAt_get_none _ _ _ _ h
  | headers hs =>
    show ((updateApiAt st _ _ _).store (Token.key fname) _).get _ = _
    rw [MetadataStorage.get_store_ne _ _ _ _ (fun hh => Token.noConfusion hh),
        updateApiAt_get_none _ _ _ _ h]
    rfl
  | body b =>
    show ((updateApiAt st _ _ _).store (Token.key fname) _).get _ = _
    rw [MetadataStorage.get_store_ne _ _ _ _ (fun hh => Token.noConfusion hh),
        updateApiAt_get_none _ _ _ _ h]
    rfl
  | expectStatus status => exact updateApiAt_get_none _ _ _ _ h
  | expectBodyPath path a => exact updateApiAt_get_none _ _ _ _ h
  | expectSchema v => exact updateApiAt_get_none _ _ _ _ h

/-- Registering a fragment sequence for an already-registered method folds
the field-level-overwrite merge over the sequence, in insertion order. -/
theorem registerFragments_get (fid cid : Nat) (fname clsName : String) :
    ∀ (fs : List ApiFragment) (st : MetadataStorage) (m : DecoratorMetadata)
      (acc : ApiOptions),
      st.get (Token.fn fid fname) = some m → m.options.api = some acc →
      ∃ m', (registerFragments (Token.fn fid fname) fname (Token.cls cid clsName)
              clsName st fs).get (Token.fn fid fname) = some m'
        ∧ m'.options.api = some (fs.foldl mergeFragmentApi acc) := by
  intro fs
  induction fs with
  | nil =>
    intro st m acc h hacc
    refine ⟨m, h, ?_⟩
    rw [hacc]
    rfl
  | cons f t ih =>
    intro st m acc h hacc
    have hstep := applyFragment_get fid cid fname clsName st f m h
    have hapi : ({ m with options := { m.options with
        api := some (mergeFragmentApi (m.options.api.getD {}) f) } } :
          DecoratorMetadata).options.api = some (mergeFragmentApi acc f) := by
      show some (mergeFragmentApi (m.options.api.getD {}) f) = _
      rw [hacc]
      rfl
    obtain ⟨m', hm', hm'api⟩ := ih _ _ _ hstep hapi
    exact ⟨m', hm', hm'api⟩

/-- Claim C1: for a member with multiple registered API-spec fragments,
resolution yields their field-level-overwrite merge in registry insertion
order: registering any nonempty fragment sequence for a fresh member and
resolving it returns exactly the spec-side `mergeFragments` fold (later
entries' fields win, fields absent in later entries are retained); in
particular two status fragments `\x7b status: 200 \x7d` then
`\x7b status: 404 \x7d` yield effective status 404, and appending a status
fragment never disturbs the merged `method` and `path`. -/
theorem resolution_merges_fragments_in_insertion_order :
    (∀ (fid cid : Nat) (fname clsName : String) (st : MetadataStorage)
        (fs : List ApiFragment),
        st.get (Token.fn fid fname) = none → fs ≠ [] →
        resolveApiOptions
            (registerFragments (Token.fn fid fname) fname (Token.cls cid clsName)
              clsName st fs)
            (Token.fn fid fname) fname
          = some (mergeFragments fs))
    ∧ ((mergeFragments [ApiFragment.expectStatus 200,
          ApiFragment.expectStatus 404]).expect.getD {}).status = some 404
    ∧ (∀ (fs : List ApiFragment) (s : Nat),
        (mergeFragments (fs ++ [ApiFragment.expectStatus s])).method
            = (mergeFragments fs).method
        ∧ (mergeFragments (fs ++ [ApiFragment.expectStatus s])).path
            = (mergeFragments fs).path
        ∧ ((mergeFragments (fs ++ [ApiFragment.expectStatus s])).expect.getD {}).status
            = some s) := by
  refine ⟨?_, rfl, ?_⟩
  · intro fid cid fname clsName st fs h0 hne
    obtain ⟨f, t, rfl⟩ := List.exists_cons_of_ne_nil hne
    have h1 := applyFragment_get_none fid cid fname clsName st f h0
    have hapi : ({ type := MetadataType.test
                   name := fname
                   options := { api := some (mergeFragmentApi {} f) } } :
          DecoratorMetadata).options.api = some (mergeFragmentApi {} f) := rfl
    obtain ⟨m', hm', hm'api⟩ :=
      registerFragments_get fid cid fname clsName t _ _ _ h1 hapi
    have hfull : (registerFragments (Token.fn fid fname) fname (Token.cls cid clsName)
        clsName st (f :: t)).get (Token.fn fid fname) = some m' := hm'
    simp [resolveApiOptions, hfull, hm'api, mergeFragments]
  · intro fs s
    refine ⟨?_, ?_, ?_⟩ <;> simp only [mergeFragments, List.foldl_append] <;> rfl

/-- Witness for C1: the spec's two status-expectation fragments registered
in order for one fresh member resolve to the merged options, whose status
is 404. -/
theorem resolution_merges_fragments_in_insertion_order_witness :
    resolveApiOptions
        (registerFragments (Token.fn 0 "getUser") "getUser" (Token.cls 1 "ApiTests")
          "ApiTests" ⟨[]⟩ [ApiFragment.expectStatus 200, ApiFragment.expectStatus 404])
        (Token.fn 0 "getUser") "getUser"
      = some (mergeFragments [ApiFragment.expectStatus 200, ApiFragment.expectStatus 404]) :=
  resolution_merges_fragments_in_insertion_order.1 0 1 "getUser" "ApiTests" ⟨[]⟩
    [ApiFragment.expectStatus 200, ApiFragment.expectStatus 404] rfl (List.cons_ne_nil _ _)

end VerbalTest
